import Mathlib

/-!
# Verification of the Lyra domain-blocklist core (`script/core/processor.py`)

A shallow embedding of the `DomainProcessor` class: the per-line domain
normalizer (`normalize_domain`), the validator (`is_valid_domain` backed by
`domain_regex`), the priority tagger (`has_priority_keywords`), the batch
processor (`process_domains`) and the corpus merger (`merge_domains`).

Strings are modelled through their character lists.  Python string methods
(`strip`, `lower`, `split`, `startswith`, ...) are embedded as functions on
`List Char`; the embedding works at the ASCII level (Python's `str.lower` and
`str.strip` additionally fold some non-ASCII characters, but the validation
grammar used by the program is ASCII-only, so those characters can never occur
in an accepted domain and never change an accept/reject outcome).
-/

/-! ## Python string-method primitives -/

/-- The whitespace characters stripped by Python's no-argument `str.strip()`
(ASCII part: space, tab, newline, carriage return, vertical tab, form feed). -/
def pyIsSpace (c : Char) : Bool :=
  c = ' ' || c = '\t' || c = '\n' || c = '\r' || c = '\x0b' || c = '\x0c'

/-- Remove trailing characters satisfying `p` (Python `rstrip`). -/
def rstripWhile (p : Char → Bool) (l : List Char) : List Char :=
  (l.reverse.dropWhile p).reverse

/-- Python `s.strip()` on the character list. -/
def pyStrip (l : List Char) : List Char :=
  rstripWhile pyIsSpace (l.dropWhile pyIsSpace)

/-- Python `s.strip(chars)`: remove leading and trailing characters drawn
from `set`. -/
def pyStripChars (set : List Char) (l : List Char) : List Char :=
  rstripWhile (set.contains ·) (l.dropWhile (set.contains ·))

/-- Python `s.lower()` (ASCII case folding, as in `Char.toLower`). -/
def pyLower (l : List Char) : List Char :=
  l.map Char.toLower

/-- Python `s.startswith(pre)`. -/
def startswith (pre : String) (l : List Char) : Bool :=
  pre.data.isPrefixOf l

/-- Python `s.endswith(suf)`. -/
def endswith (suf : String) (l : List Char) : Bool :=
  suf.data.isSuffixOf l

/-- Python `needle in hay` substring membership. -/
def containsSub (needle : List Char) : List Char → Bool
  | [] => needle.isEmpty
  | c :: rest => needle.isPrefixOf (c :: rest) || containsSub needle rest

/-- Split a character list at every character satisfying `p`, keeping empty
fields (`splitOnPred (· = ',') "a,,b" = ["a","","b"]`, and `[""]` on `[]`). -/
def splitOnPred (p : Char → Bool) : List Char → List (List Char)
  | [] => [[]]
  | c :: rest =>
    if p c then [] :: splitOnPred p rest
    else
      match splitOnPred p rest with
      | [] => [[c]]
      | part :: parts => (c :: part) :: parts

/-- Python `s.split(sep)` for a one-character separator `sep`. -/
def splitChar (sep : Char) (l : List Char) : List (List Char) :=
  splitOnPred (· = sep) l

/-- Python no-argument `s.split()`: split on whitespace runs, discarding
empty fields. -/
def pySplitWS (l : List Char) : List (List Char) :=
  (splitOnPred pyIsSpace l).filter (· ≠ [])

/-- Python `s.split(sep)[0]`: the prefix of `l` before the first `sep`. -/
def upTo (sep : Char) (l : List Char) : List Char :=
  l.takeWhile (· ≠ sep)

/-! ## Model of `urllib.parse.urlparse(url).netloc`

CPython's `urlsplit`: an initial `scheme:` (a letter followed by
letters/digits/`+`/`-`/`.`, up to the first `:`) is removed; if the remainder
begins with `//`, the netloc is everything up to the next `/`, `?` or `#`.
CPython raises `ValueError` when the netloc contains unbalanced square
brackets, and (in recent versions) when a bracketed host is not a valid
IPv6/IPvFuture address; both callers in `processor.py` wrap the call in
`try/except`.  The model routes every bracket-containing netloc through the
error path (`none`): a well-formed bracketed host always contains characters
the later domain validation rejects, so this collapse never changes an
accept/reject outcome of the program. -/

/-- Characters allowed in a URL scheme after the leading letter. -/
def schemeChar (c : Char) : Bool :=
  c.isAlphanum || c = '+' || c = '-' || c = '.'

/-- Remove a leading `scheme:` if present and well-formed, as CPython's
`urlsplit` does.  When the `dropWhile` result is non-empty its head is the
first `:` of the url, so `tail` is everything after that colon. -/
def splitScheme (url : List Char) : List Char :=
  if (url.dropWhile (· ≠ ':')).isEmpty then url
  else
    match url.takeWhile (· ≠ ':') with
    | [] => url
    | b :: bs =>
      if b.isAlpha && bs.all schemeChar then (url.dropWhile (· ≠ ':')).tail else url

/-- The authority component after `//`: everything up to the next `/`, `?`
or `#`. -/
def netlocOf (rest : List Char) : List Char :=
  (rest.drop 2).takeWhile (fun c => !(c = '/' || c = '?' || c = '#'))

/-- `urlparse(url).netloc`, with `none` for the `ValueError` path. -/
def urlparseNetloc (url : List Char) : Option (List Char) :=
  if (splitScheme url).take 2 = ['/', '/'] then
    if (netlocOf (splitScheme url)).contains '[' ||
        (netlocOf (splitScheme url)).contains ']' then none
    else some (netlocOf (splitScheme url))
  else some []

/-! ## `DomainProcessor.normalize_domain` (processor.py lines 15-88)

The body after the empty/comment checks is a pipeline of cleanup steps, one
definition per commented block of the source. -/

/-- CSV handling for PhishTank-style sources (lines 36-49).  `none` models the
`return ""` taken when `urlparse` raises. -/
def csvStep (source_name : Option (List Char)) (l : List Char) : Option (List Char) :=
  match source_name with
  | none => some l
  | some name =>
    if !name.isEmpty && containsSub "phishtank".data name && l.contains ',' then
      match splitChar ',' l with
      | _ :: p1 :: _ =>
        if startswith "http" (pyStripChars ['"'] p1) then
          match urlparseNetloc (pyStripChars ['"'] p1) with
          | some netloc => some netloc
          | none => none
        else some (pyStripChars ['"'] p1)
      | _ => some l
    else some l

/-- AdGuard filter syntax `||domain^` (lines 52-55). -/
def adguardStep (l : List Char) : List Char :=
  if startswith "||" l && endswith "^" l then (l.drop 2).dropLast
  else if startswith "||" l then l.drop 2
  else l

/-- Hosts-file syntax `0.0.0.0 domain.com` (lines 57-60). -/
def hostsStep (l : List Char) : List Char :=
  if startswith "0.0.0.0" l || startswith "127.0.0.1" l ||
      startswith "::1" l || startswith "localhost" l then
    match pySplitWS l with
    | _ :: second :: _ => second
    | _ => []
  else l

/-- Adblock marker stripping: `lstrip("|").rstrip("^")`, `lstrip("*.").lstrip(".")`
(lines 62-64). -/
def markersStep (l : List Char) : List Char :=
  ((rstripWhile (· = '^') (l.dropWhile (· = '|'))).dropWhile
    (fun c => c = '*' || c = '.')).dropWhile (· = '.')

/-- Protocol prefix removal (lines 66-73).  Note the source prepends
`http://` to any string that does not start with `http://`/`https://` —
including `ftp://` URLs, which therefore reach `urlparse` with two schemes. -/
def protocolArg (l : List Char) : List Char :=
  if startswith "http://" l || startswith "https://" l then l else "http://".data ++ l

def protocolStep (l : List Char) : List Char :=
  if startswith "http://" l || startswith "https://" l || startswith "ftp://" l then
    match urlparseNetloc (protocolArg l) with
    | some netloc => netloc
    | none => l
  else l

/-- Port removal (lines 75-77): truncate at `:` only when exactly one colon
is present. -/
def portStep (l : List Char) : List Char :=
  if l.contains ':' && !(l.count ':' > 1) then upTo ':' l else l

/-- Path removal (lines 79-81). -/
def pathStep (l : List Char) : List Char :=
  if l.contains '/' then upTo '/' l else l

/-- Query removal (lines 82-83). -/
def queryStep (l : List Char) : List Char :=
  if l.contains '?' then upTo '?' l else l

/-- The punctuation set of the final `strip` (line 86). -/
def finalStripSet : List Char := ".,;:!@#$%^&*()[]\x7b\x7d\"\x27 \t\n\r".data

/-- Final stray-character strip (line 86). -/
def finalStep (l : List Char) : List Char :=
  pyStripChars finalStripSet l

/-- The cleanup pipeline after the CSV step (lines 52-88, in source order). -/
def cleanupPipeline (l : List Char) : List Char :=
  finalStep (queryStep (pathStep (portStep (protocolStep
    (markersStep (hostsStep (adguardStep l)))))))

/-- The body of `normalize_domain` after the strip/lowercase of line 29:
the comment/empty filter (line 32), the CSV extraction, and the cleanup
pipeline. -/
def normalize_core (source_name : Option String) (l : List Char) : String :=
  if l.isEmpty || startswith "#" l || startswith "!" l || startswith ";" l then ""
  else
    match csvStep (source_name.map String.data) l with
    | none => ""
    | some l2 => ⟨cleanupPipeline l2⟩

/-- `DomainProcessor.normalize_domain` (lines 15-88). -/
def normalize_domain (domain : String) (source_name : Option String := none) : String :=
  if domain = "" then ""
  else normalize_core source_name (pyLower (pyStrip domain.data))

/-! ## `DomainProcessor.is_valid_domain` (lines 13 and 90-100)

`domain_regex = ^(?!-)[A-Za-z0-9-]{1,63}(?<!-)\.[A-Za-z]{2,}$`.  The first
character class excludes `.`, so a match is forced to decompose the string as
one 1-63 character label (alphanumeric/hyphen, not starting or ending with a
hyphen), a dot, and a final label of at least two letters.  The code applies
`re.search`, whose `^` anchors at position 0 and whose `$` also matches just
before a single trailing newline. -/

/-- A character of the regex class `[A-Za-z0-9-]`. -/
def isLabelChar (c : Char) : Bool :=
  c.isAlphanum || c = '-'

/-- Full-string match of `domain_regex`. -/
def matchesDomainRegex (l : List Char) : Bool :=
  let label := l.takeWhile (· ≠ '.')
  match l.dropWhile (· ≠ '.') with
  | '.' :: tld =>
    decide (1 ≤ label.length ∧ label.length ≤ 63) &&
    label.all isLabelChar &&
    label.head? != some '-' && label.getLast? != some '-' &&
    decide (2 ≤ tld.length) && tld.all Char.isAlpha
  | _ => false

/-- `DomainProcessor.is_valid_domain`: `bool(domain_regex.search(domain))`,
including Python's `$`-before-final-newline behaviour. -/
def is_valid_domain (domain : String) : Bool :=
  matchesDomainRegex domain.data ||
    (match domain.data.getLast? with
     | some '\n' => matchesDomainRegex domain.data.dropLast
     | _ => false)

/-! ## `DomainProcessor.has_priority_keywords` and `process_domains`
(lines 102-140) -/

/-- `any(keyword in domain for keyword in keywords)`. -/
def has_priority_keywords (domain : String) (keywords : List String) : Bool :=
  keywords.any (fun keyword => containsSub keyword.data domain.data)

/-- One iteration of the `process_domains` loop (lines 132-138), acting on the
accumulated `(normalized_domains, priority_domains)` pair. -/
def processStep (priority_keywords : List String) (source_name : Option String)
    (acc : Finset String × Finset String) (raw_domain : String) :
    Finset String × Finset String :=
  let domain := normalize_domain raw_domain source_name
  if domain ≠ "" ∧ is_valid_domain domain then
    (insert domain acc.1,
     if priority_keywords ≠ [] ∧ has_priority_keywords domain priority_keywords then
       insert domain acc.2
     else acc.2)
  else acc

/-- `DomainProcessor.process_domains` (lines 115-140); an absent
`priority_keywords` (`None`) behaves as the empty list. -/
def process_domains (raw_domains : List String) (priority_keywords : List String := [])
    (source_name : Option String := none) : Finset String × Finset String :=
  raw_domains.foldl (processStep priority_keywords source_name) (∅, ∅)

/-! ## `DomainProcessor.merge_domains` (lines 165-194) -/

/-- The `merge_stats` dictionary (lines 186-192). -/
structure MergeStats where
  existing_count : Nat
  new_count : Nat
  newly_added_count : Nat
  total_count : Nat
  priority_count : Nat
deriving Repr, DecidableEq

/-- `DomainProcessor.merge_domains`: union, sort alphabetically (plain string
order), and report statistics.  The `priority_domains` argument is accepted
but never read (its doc string says "ignored for general sorting" and
`priority_count` is hard-coded to 0). -/
def merge_domains (existing_domains new_domains : Finset String)
    (priority_domains : Finset String := ∅) : List String × MergeStats :=
  let _ := priority_domains
  let all_domains := existing_domains ∪ new_domains
  let newly_added := new_domains \ existing_domains
  let final_domains_list := all_domains.sort (· ≤ ·)
  (final_domains_list,
   { existing_count := existing_domains.card
     new_count := new_domains.card
     newly_added_count := newly_added.card
     total_count := all_domains.card
     priority_count := 0 })

/-- The normalize contract as run by `process_domains` (line 134): the
normalized domain when it is non-empty and valid, otherwise rejection. -/
def acceptedDomain (raw : String) (source_name : Option String := none) : Option String :=
  let domain := normalize_domain raw source_name
  if domain ≠ "" ∧ is_valid_domain domain then some domain else none

/-! ## Merger theorems -/

/-- C3: append-only merge — every domain of the existing corpus appears in
the final sorted list returned by `merge_domains`. -/
theorem merge_append_only (existing_domains new_domains priority_domains : Finset String)
    (d : String) (hd : d ∈ existing_domains) :
    d ∈ (merge_domains existing_domains new_domains priority_domains).1 := by
  simp only [merge_domains, Finset.mem_sort, Finset.mem_union]
  exact Or.inl hd

theorem merge_append_only_witness :
    "a.com" ∈ ({"a.com"} : Finset String) ∧
      "a.com" ∈ (merge_domains {"a.com"} {"b.com"} ∅).1 :=
  ⟨Finset.mem_singleton_self _, merge_append_only _ _ _ _ (Finset.mem_singleton_self _)⟩

/-- C4: the priority argument is inert — `merge_domains` returns the same
list and statistics for any two priority sets, and `priority_count` is 0. -/
theorem merge_priority_inert (existing_domains new_domains P1 P2 : Finset String) :
    merge_domains existing_domains new_domains P1 =
      merge_domains existing_domains new_domains P2 ∧
    (merge_domains existing_domains new_domains P1).2.priority_count = 0 :=
  ⟨rfl, rfl⟩

/-- C5: the final list of `merge_domains` is strictly ascending in the
codepoint-lexicographic string order (hence duplicate-free), and its length
is the cardinality of the union of the two input sets. -/
theorem merge_sorted_nodup (existing_domains new_domains priority_domains : Finset String) :
    List.Sorted (· < ·) (merge_domains existing_domains new_domains priority_domains).1 ∧
    (merge_domains existing_domains new_domains priority_domains).1.Nodup ∧
    (merge_domains existing_domains new_domains priority_domains).1.length =
      (existing_domains ∪ new_domains).card :=
  ⟨Finset.sort_sorted_lt _, Finset.sort_nodup _ _, Finset.length_sort _⟩

/-- C6: merging an empty batch into the final list of a previous merge
returns that list unchanged. -/
theorem merge_empty_batch_noop (C B1 P1 : Finset String) :
    (merge_domains ((merge_domains C B1 P1).1.toFinset) ∅ ∅).1 =
      (merge_domains C B1 P1).1 := by
  simp only [merge_domains, Finset.sort_toFinset, Finset.union_empty]

/-! ## Concrete normalalization evaluations -/

/-- C1 (failing-input evaluation): the cleanup pipeline does produce the
canonical string `sub.bad-site.com` from the spec's example URL, but
`is_valid_domain` rejects it — `domain_regex` has no label-repetition group,
so every domain of three or more labels fails validation and the contract
yields no accepted domain. -/
theorem multi_label_domain_rejected :
    normalize_domain "https://sub.Bad-Site.COM:8080/path?x=1" none = "sub.bad-site.com" ∧
    is_valid_domain "sub.bad-site.com" = false ∧
    acceptedDomain "https://sub.Bad-Site.COM:8080/path?x=1" none = none := by
  decide

/-- C2 (failing-input evaluation): an `ftp://` line has `http://` prepended
before parsing, so `urlparse` reports the second scheme `ftp:` as the host;
the line normalizes to `"ftp"`, which fails validation, so every `ftp://`
line is rejected rather than reduced to its domain. -/
theorem ftp_line_rejected :
    normalize_domain "ftp://example.com/files" none = "ftp" ∧
    is_valid_domain "ftp" = false ∧
    acceptedDomain "ftp://example.com/files" none = none := by
  decide

/-- C8: the four malformed inputs of the spec are all rejected by the
normalize-then-validate contract. -/
theorem malformed_inputs_rejected :
    acceptedDomain "# comment" none = none ∧
    acceptedDomain "" none = none ∧
    acceptedDomain "not a domain" none = none ∧
    acceptedDomain ("toolonglabel" ++ ⟨List.replicate 70 'a'⟩ ++ ".com") none = none := by
  decide

/-! ## Lowercase preservation through the pipeline

`normalize_domain` lowercases its input up front; every later step only keeps
characters of its input (or of the lowercase literal `"http://"`), so the
output never contains an uppercase letter. -/

/-- Every character of `l` is fixed by `Char.toLower`. -/
def LowerFixed (l : List Char) : Prop := ∀ c ∈ l, c.toLower = c

theorem toNat_ofNat_of_valid (n : Nat) (h : n.isValidChar) : (Char.ofNat n).toNat = n := by
  rw [Char.ofNat, dif_pos h]; rfl

theorem toLower_toLower (c : Char) : c.toLower.toLower = c.toLower := by
  simp only [Char.toLower]
  by_cases h : c.toNat ≥ 65 ∧ c.toNat ≤ 90
  · rw [if_pos h]
    have hv : (Char.ofNat (c.toNat + 32)).toNat = c.toNat + 32 :=
      toNat_ofNat_of_valid _ (Or.inl (by omega))
    rw [if_neg (by omega)]
  · rw [if_neg h, if_neg h]

theorem lowerFixed_of_subset {l l' : List Char} (hsub : l' ⊆ l) (h : LowerFixed l) :
    LowerFixed l' :=
  fun c hc => h c (hsub hc)

theorem lowerFixed_pyLower (l : List Char) : LowerFixed (pyLower l) := by
  intro c hc
  obtain ⟨a, _, rfl⟩ := List.mem_map.1 hc
  exact toLower_toLower a

theorem lowerFixed_append {l₁ l₂ : List Char} (h₁ : LowerFixed l₁) (h₂ : LowerFixed l₂) :
    LowerFixed (l₁ ++ l₂) := by
  intro c hc
  rcases List.mem_append.1 hc with hc | hc
  · exact h₁ c hc
  · exact h₂ c hc

theorem pyLower_eq_self_of_lowerFixed {l : List Char} (h : LowerFixed l) : pyLower l = l := by
  induction l with
  | nil => rfl
  | cons c rest ih =>
    simp only [pyLower, List.map_cons] at *
    rw [h c (List.mem_cons_self c rest), ih (fun a ha => h a (List.mem_cons_of_mem c ha))]

theorem rstripWhile_subset (p : Char → Bool) (l : List Char) : rstripWhile p l ⊆ l := by
  intro c hc
  rw [rstripWhile, List.mem_reverse] at hc
  exact List.mem_reverse.1 ((List.dropWhile_sublist p).subset hc)

theorem pyStripChars_subset (set l : List Char) : pyStripChars set l ⊆ l :=
  fun c hc =>
    (List.dropWhile_sublist _).subset (rstripWhile_subset _ _ hc)

theorem mem_of_mem_splitOnPred (p : Char → Bool) :
    ∀ (l : List Char), ∀ part ∈ splitOnPred p l, part ⊆ l := by
  intro l
  induction l with
  | nil =>
    intro part hp c hc
    simp only [splitOnPred, List.mem_singleton] at hp
    subst hp
    cases hc
  | cons c0 rest ih =>
    intro part hp c hc
    simp only [splitOnPred] at hp
    by_cases h0 : p c0
    · rw [if_pos h0] at hp
      rcases List.mem_cons.1 hp with rfl | hp
      · cases hc
      · exact List.mem_cons_of_mem c0 (ih part hp hc)
    · rw [if_neg h0] at hp
      rcases hrec : splitOnPred p rest with _ | ⟨h1, t1⟩
      · rw [hrec] at hp
        simp only [List.mem_singleton] at hp
        subst hp
        simp only [List.mem_singleton] at hc
        exact hc ▸ List.mem_cons_self _ _
      · rw [hrec] at hp
        rcases List.mem_cons.1 hp with rfl | hp
        · rcases List.mem_cons.1 hc with rfl | hc
          · exact List.mem_cons_self _ _
          · exact List.mem_cons_of_mem c0
              (ih h1 (hrec ▸ List.mem_cons_self h1 t1) hc)
        · exact List.mem_cons_of_mem c0
            (ih part (hrec ▸ List.mem_cons_of_mem h1 hp) hc)

theorem splitScheme_subset (url : List Char) : splitScheme url ⊆ url := by
  rw [splitScheme]
  split
  · exact List.Subset.refl url
  · split
    · exact List.Subset.refl url
    · split
      · exact fun a ha =>
          (List.dropWhile_sublist _).subset ((List.tail_sublist _).subset ha)
      · exact List.Subset.refl url

theorem netlocOf_subset (rest : List Char) : netlocOf rest ⊆ rest :=
  fun c hc =>
    (List.drop_sublist 2 _).subset ((List.takeWhile_sublist _).subset hc)

theorem urlparseNetloc_subset {url netloc : List Char} (h : urlparseNetloc url = some netloc) :
    netloc ⊆ url := by
  rw [urlparseNetloc] at h
  split at h
  · split at h
    · cases h
    · injection h with h
      subst h
      exact fun c hc => splitScheme_subset url (netlocOf_subset _ hc)
  · injection h with h
    subst h
    exact fun c hc => absurd hc (List.not_mem_nil c)

theorem lowerFixed_http : LowerFixed "http://".data := by
  show ∀ c ∈ "http://".data, c.toLower = c
  decide

theorem csvStep_lowerFixed {src : Option (List Char)} {l l' : List Char}
    (h : LowerFixed l) (heq : csvStep src l = some l') : LowerFixed l' := by
  rw [csvStep.eq_def] at heq
  split at heq
  · injection heq with heq; exact heq ▸ h
  · split at heq
    · split at heq
      · rename_i a p1 rest hm
        have hp1 : p1 ⊆ l :=
          mem_of_mem_splitOnPred _ l p1
            (hm ▸ List.mem_cons_of_mem a (List.mem_cons_self p1 rest))
        have hurl : LowerFixed (pyStripChars ['"'] p1) :=
          lowerFixed_of_subset (fun c hc => hp1 (pyStripChars_subset _ _ hc)) h
        split at heq
        · split at heq
          · injection heq with heq
            exact heq ▸ lowerFixed_of_subset (urlparseNetloc_subset (by assumption)) hurl
          · cases heq
        · injection heq with heq; exact heq ▸ hurl
      · injection heq with heq; exact heq ▸ h
    · injection heq with heq; exact heq ▸ h

theorem adguardStep_lowerFixed {l : List Char} (h : LowerFixed l) :
    LowerFixed (adguardStep l) := by
  rw [adguardStep]
  split
  · exact lowerFixed_of_subset
      (fun c hc => (List.drop_sublist 2 l).subset ((List.dropLast_sublist _).subset hc)) h
  · split
    · exact lowerFixed_of_subset (fun c hc => (List.drop_sublist 2 l).subset hc) h
    · exact h

theorem hostsStep_lowerFixed {l : List Char} (h : LowerFixed l) :
    LowerFixed (hostsStep l) := by
  rw [hostsStep]
  split
  · split
    · rename_i a second rest hm
      have hmem : second ∈ pySplitWS l := hm ▸ List.mem_cons_of_mem a (List.mem_cons_self second rest)
      exact lowerFixed_of_subset
        (fun c hc => mem_of_mem_splitOnPred pyIsSpace l second (List.mem_of_mem_filter hmem) hc) h
    · intro c hc; cases hc
  · exact h

theorem markersStep_lowerFixed {l : List Char} (h : LowerFixed l) :
    LowerFixed (markersStep l) := by
  rw [markersStep]
  refine lowerFixed_of_subset (fun c hc => ?_) h
  have h1 := (List.dropWhile_sublist (α := Char) (· = '.')).subset hc
  have h2 := (List.dropWhile_sublist (α := Char) (fun c => c = '*' || c = '.')).subset h1
  have h3 := rstripWhile_subset (· = '^') _ h2
  exact (List.dropWhile_sublist (· = '|')).subset h3

theorem protocolArg_lowerFixed {l : List Char} (h : LowerFixed l) :
    LowerFixed (protocolArg l) := by
  rw [protocolArg]
  split
  · exact h
  · exact lowerFixed_append lowerFixed_http h

theorem protocolStep_lowerFixed {l : List Char} (h : LowerFixed l) :
    LowerFixed (protocolStep l) := by
  rw [protocolStep]
  split
  · split
    · next netloc heq =>
        exact lowerFixed_of_subset (urlparseNetloc_subset heq) (protocolArg_lowerFixed h)
    · exact h
  · exact h

theorem portStep_lowerFixed {l : List Char} (h : LowerFixed l) :
    LowerFixed (portStep l) := by
  rw [portStep]
  split
  · exact lowerFixed_of_subset (fun c hc => (List.takeWhile_sublist _).subset hc) h
  · exact h

theorem pathStep_lowerFixed {l : List Char} (h : LowerFixed l) :
    LowerFixed (pathStep l) := by
  rw [pathStep]
  split
  · exact lowerFixed_of_subset (fun c hc => (List.takeWhile_sublist _).subset hc) h
  · exact h

theorem queryStep_lowerFixed {l : List Char} (h : LowerFixed l) :
    LowerFixed (queryStep l) := by
  rw [queryStep]
  split
  · exact lowerFixed_of_subset (fun c hc => (List.takeWhile_sublist _).subset hc) h
  · exact h

theorem finalStep_lowerFixed {l : List Char} (h : LowerFixed l) :
    LowerFixed (finalStep l) :=
  lowerFixed_of_subset (pyStripChars_subset _ _) h

theorem cleanupPipeline_lowerFixed {l : List Char} (h : LowerFixed l) :
    LowerFixed (cleanupPipeline l) :=
  finalStep_lowerFixed (queryStep_lowerFixed (pathStep_lowerFixed (portStep_lowerFixed
    (protocolStep_lowerFixed (markersStep_lowerFixed (hostsStep_lowerFixed
      (adguardStep_lowerFixed h)))))))

theorem mk_data (l : List Char) : (String.mk l).data = l := rfl

theorem empty_data : ("" : String).data = [] := rfl

/-- Equation for `normalize_core` when the comment/empty filter fires. -/
theorem normalize_core_filtered {source_name : Option String} {l : List Char}
    (hf : (l.isEmpty || startswith "#" l || startswith "!" l || startswith ";" l) = true) :
    normalize_core source_name l = "" := by
  rw [normalize_core, if_pos hf]

/-- Equation for `normalize_core` when the CSV step errors out. -/
theorem normalize_core_csv_err {source_name : Option String} {l : List Char}
    (hf : (l.isEmpty || startswith "#" l || startswith "!" l || startswith ";" l) = false)
    (hcsv : csvStep (Option.map String.data source_name) l = none) :
    normalize_core source_name l = "" := by
  rw [normalize_core, if_neg (by rw [hf]; exact Bool.false_ne_true), hcsv]

/-- Equation for `normalize_core` when the CSV step returns a string. -/
theorem normalize_core_csv_ok {source_name : Option String} {l l2 : List Char}
    (hf : (l.isEmpty || startswith "#" l || startswith "!" l || startswith ";" l) = false)
    (hcsv : csvStep (Option.map String.data source_name) l = some l2) :
    normalize_core source_name l = ⟨cleanupPipeline l2⟩ := by
  rw [normalize_core, if_neg (by rw [hf]; exact Bool.false_ne_true), hcsv]

/-- Whatever `normalize_domain` returns contains no character changed by
lowercasing. -/
theorem normalize_core_lowerFixed (source_name : Option String) {l : List Char}
    (h : LowerFixed l) : LowerFixed (normalize_core source_name l).data := by
  rcases hf : (l.isEmpty || startswith "#" l || startswith "!" l || startswith ";" l) with _ | _
  · rcases hcsv : csvStep (Option.map String.data source_name) l with _ | l2
    · rw [normalize_core_csv_err hf hcsv, empty_data]
      intro c hc; cases hc
    · rw [normalize_core_csv_ok hf hcsv, mk_data]
      exact cleanupPipeline_lowerFixed (csvStep_lowerFixed h hcsv)
  · rw [normalize_core_filtered hf, empty_data]
    intro c hc; cases hc

theorem normalize_domain_lowerFixed (domain : String) (source_name : Option String) :
    LowerFixed (normalize_domain domain source_name).data := by
  rw [normalize_domain]
  split
  · intro c hc; cases hc
  · exact normalize_core_lowerFixed source_name (lowerFixed_pyLower _)

/-! ## Invariants of `process_domains` -/

theorem processStep_fold_subset (priority_keywords : List String) (source_name : Option String) :
    ∀ (raws : List String) (acc : Finset String × Finset String), acc.2 ⊆ acc.1 →
      (raws.foldl (processStep priority_keywords source_name) acc).2 ⊆
        (raws.foldl (processStep priority_keywords source_name) acc).1 := by
  intro raws
  induction raws with
  | nil => intro acc h; simpa using h
  | cons raw rest ih =>
    intro acc h
    rw [List.foldl_cons]
    apply ih
    rw [processStep]
    split
    · dsimp only
      split
      · exact Finset.insert_subset_insert _ h
      · exact h.trans (Finset.subset_insert _ _)
    · exact h

theorem processStep_fold_good (priority_keywords : List String) (source_name : Option String) :
    ∀ (raws : List String) (acc : Finset String × Finset String),
      (∀ d ∈ acc.1, d ≠ "" ∧ is_valid_domain d = true ∧ pyLower d.data = d.data) →
      ∀ d ∈ (raws.foldl (processStep priority_keywords source_name) acc).1,
        d ≠ "" ∧ is_valid_domain d = true ∧ pyLower d.data = d.data := by
  intro raws
  induction raws with
  | nil => intro acc hacc; simpa using hacc
  | cons raw rest ih =>
    intro acc hacc
    rw [List.foldl_cons]
    apply ih
    rw [processStep]
    split
    · next hguard =>
        intro d hd
        rcases Finset.mem_insert.1 hd with rfl | hd
        · exact ⟨hguard.1, hguard.2,
            pyLower_eq_self_of_lowerFixed (normalize_domain_lowerFixed raw source_name)⟩
        · exact hacc d hd
    · exact hacc

/-- C9: the priority set returned by `process_domains` is contained in the
normalized set — a domain is tagged priority only if it was itself accepted
into the normalized set of the same batch. -/
theorem process_domains_priority_subset (raw_domains : List String)
    (priority_keywords : List String) (source_name : Option String) :
    (process_domains raw_domains priority_keywords source_name).2 ⊆
      (process_domains raw_domains priority_keywords source_name).1 :=
  processStep_fold_subset priority_keywords source_name raw_domains (∅, ∅)
    (Finset.empty_subset _)

/-- C10: every element of the normalized set returned by `process_domains`
is a non-empty string that passes `is_valid_domain` and equals its own
lowercasing. -/
theorem process_domains_canonical (raw_domains : List String)
    (priority_keywords : List String) (source_name : Option String) (d : String)
    (hd : d ∈ (process_domains raw_domains priority_keywords source_name).1) :
    d ≠ "" ∧ is_valid_domain d = true ∧ pyLower d.data = d.data :=
  processStep_fold_good priority_keywords source_name raw_domains (∅, ∅)
    (fun d hd => absurd hd (Finset.not_mem_empty d)) d hd

theorem process_domains_canonical_witness :
    "example.com" ∈ (process_domains ["Example.COM"] [] none).1 ∧
      ("example.com" ≠ "" ∧ is_valid_domain "example.com" = true ∧
        pyLower "example.com".data = "example.com".data) :=
  ⟨by decide, process_domains_canonical ["Example.COM"] [] none "example.com" (by decide)⟩

/-! ## Fix-point behaviour of `normalize_domain` on canonical domains

A string that already matches `domain_regex` consists only of alphanumerics,
hyphens and dots, starts with an alphanumeric and ends with a letter.  On
such strings (lowercase) every cleanup step is the identity — except the
hosts-file step, which turns a string starting with one of its address
tokens into the empty string. -/

/-- The characters that can occur in a `domain_regex` match. -/
def goodChar (c : Char) : Bool :=
  c.isAlphanum || c = '-' || c = '.'

theorem good_not_space {c : Char} (h : goodChar c = true) : pyIsSpace c = false := by
  cases hps : pyIsSpace c
  · rfl
  · simp only [pyIsSpace, Bool.or_eq_true, decide_eq_true_eq] at hps
    rcases hps with ((((rfl | rfl) | rfl) | rfl) | rfl) | rfl <;> exact absurd h (by decide)

theorem alnum_of_alpha {c : Char} (h : c.isAlpha = true) : c.isAlphanum = true := by
  simp [Char.isAlphanum, h]

theorem ne_char_of_alnum {c d : Char} (h : c.isAlphanum = true) (hd : d.isAlphanum = false) :
    decide (c = d) = false := by
  apply decide_eq_false
  intro heq
  subst heq
  rw [h] at hd
  cases hd

theorem dropWhile_head_no {p : Char → Bool} {l : List Char} {c0 : Char}
    (hh : l.head? = some c0) (hp : p c0 = false) : l.dropWhile p = l := by
  cases l with
  | nil => rfl
  | cons a rest =>
    injection hh with hh
    subst hh
    rw [List.dropWhile_cons, if_neg (by rw [hp]; exact Bool.false_ne_true)]

theorem rstripWhile_last_no {p : Char → Bool} {l : List Char} {c1 : Char}
    (hl : l.getLast? = some c1) (hp : p c1 = false) : rstripWhile p l = l := by
  rw [rstripWhile, dropWhile_head_no (by rw [List.head?_reverse]; exact hl) hp,
    List.reverse_reverse]

theorem contains_eq_false_of_forall {l : List Char} {a : Char}
    (h : ∀ c ∈ l, (c == a) = false) : l.contains a = false := by
  cases hc : l.contains a
  · rfl
  · exact absurd (h a (List.elem_iff.1 hc)) (by simp)

theorem good_contains_eq_false {l : List Char} {a : Char}
    (hgood : ∀ c ∈ l, goodChar c = true) (hbad : goodChar a = false) :
    l.contains a = false := by
  apply contains_eq_false_of_forall
  intro c hc
  cases hbeq : c == a
  · rfl
  · exact absurd (hgood c hc) (by rw [eq_of_beq hbeq, hbad]; exact Bool.false_ne_true)

theorem good_startswith_eq_false {pre : String} {l : List Char} {a : Char}
    (hgood : ∀ c ∈ l, goodChar c = true) (ha : a ∈ pre.data) (hbad : goodChar a = false) :
    startswith pre l = false := by
  cases hsw : startswith pre l
  · rfl
  · obtain ⟨t, ht⟩ := List.isPrefixOf_iff_prefix.1 hsw
    have : a ∈ l := ht ▸ List.mem_append_left t ha
    rw [hgood a this] at hbad
    cases hbad

theorem splitOnPred_no {p : Char → Bool} :
    ∀ {l : List Char}, (∀ c ∈ l, p c = false) → splitOnPred p l = [l] := by
  intro l
  induction l with
  | nil => intro _; rfl
  | cons c rest ih =>
    intro h
    rw [splitOnPred, if_neg (by rw [h c (List.mem_cons_self c rest)]; exact Bool.false_ne_true),
      ih (fun a ha => h a (List.mem_cons_of_mem c ha))]

/-- Structure of a `domain_regex` match: one 1-63 character label of
alphanumerics/hyphens with no hyphen at either end, a dot, and a final label
of at least two letters. -/
theorem matches_spec {l : List Char} (hm : matchesDomainRegex l = true) :
    ∃ label tld, l = label ++ '.' :: tld ∧
      1 ≤ label.length ∧ label.length ≤ 63 ∧ (∀ c ∈ label, isLabelChar c = true) ∧
      label.head? ≠ some '-' ∧ label.getLast? ≠ some '-' ∧
      2 ≤ tld.length ∧ ∀ c ∈ tld, c.isAlpha = true := by
  rw [matchesDomainRegex] at hm
  split at hm
  · next tld heq =>
      refine ⟨l.takeWhile (· ≠ '.'), tld, ?_, ?_⟩
      · rw [← heq, List.takeWhile_append_dropWhile]
      · simp only [Bool.and_eq_true, decide_eq_true_eq, List.all_eq_true, bne_iff_ne,
          ne_eq] at hm
        exact ⟨hm.1.1.1.1.1.1, hm.1.1.1.1.1.2, hm.1.1.1.1.2, hm.1.1.1.2, hm.1.1.2,
          hm.1.2, hm.2⟩
  · cases hm

theorem matches_good {l : List Char} (hm : matchesDomainRegex l = true) :
    ∀ c ∈ l, goodChar c = true := by
  obtain ⟨label, tld, hdec, -, -, hlab, -, -, -, htld⟩ := matches_spec hm
  intro c hc
  rw [hdec] at hc
  rcases List.mem_append.1 hc with hc | hc
  · have := hlab c hc
    simp only [isLabelChar, Bool.or_eq_true] at this
    simp only [goodChar, Bool.or_eq_true]
    tauto
  · rcases List.mem_cons.1 hc with rfl | hc
    · decide
    · have := alnum_of_alpha (htld c hc)
      simp only [goodChar, Bool.or_eq_true]
      tauto

theorem matches_head {l : List Char} (hm : matchesDomainRegex l = true) :
    ∃ c0, l.head? = some c0 ∧ c0.isAlphanum = true := by
  obtain ⟨label, tld, hdec, hlen, -, hlab, hhd, -, -, -⟩ := matches_spec hm
  cases label with
  | nil => cases hlen
  | cons a as =>
    refine ⟨a, ?_, ?_⟩
    · rw [hdec]; rfl
    · have hlc := hlab a (List.mem_cons_self a as)
      simp only [List.head?_cons, ne_eq, Option.some.injEq] at hhd
      simp only [isLabelChar, Bool.or_eq_true, decide_eq_true_eq] at hlc
      rcases hlc with hlc | hlc
      · exact hlc
      · exact absurd hlc hhd

theorem matches_last {l : List Char} (hm : matchesDomainRegex l = true) :
    ∃ c1, l.getLast? = some c1 ∧ c1.isAlpha = true := by
  obtain ⟨label, tld, hdec, -, -, -, -, -, hlen, htld⟩ := matches_spec hm
  have htne : tld ≠ [] := by
    intro h
    rw [h] at hlen
    cases hlen
  refine ⟨tld.getLast htne, ?_, htld _ (List.getLast_mem htne)⟩
  rw [hdec, List.getLast?_append, List.getLast?_eq_getLast ('.' :: tld) (List.cons_ne_nil _ _),
    List.getLast_cons htne]
  rfl

theorem isEmpty_eq_false_of_ne {l : List Char} (h : l ≠ []) : l.isEmpty = false := by
  cases l with
  | nil => exact absurd rfl h
  | cons a t => rfl

theorem contains_eq_false_of_all_bad {l : List Char} {a : Char}
    (hl : ∀ c ∈ l, c.isAlphanum = false) (ha : a.isAlphanum = true) :
    l.contains a = false := by
  apply contains_eq_false_of_forall
  intro c hc
  cases hbeq : c == a
  · rfl
  · have := hl c hc
    rw [eq_of_beq hbeq, ha] at this
    cases this

theorem pyStrip_fix {l : List Char} {c0 c1 : Char}
    (hh : l.head? = some c0) (h0 : pyIsSpace c0 = false)
    (hl : l.getLast? = some c1) (h1 : pyIsSpace c1 = false) : pyStrip l = l := by
  rw [pyStrip, dropWhile_head_no hh h0, rstripWhile_last_no hl h1]

theorem adguardStep_fix {l : List Char} (hgood : ∀ c ∈ l, goodChar c = true) :
    adguardStep l = l := by
  have h1 : startswith "||" l = false :=
    good_startswith_eq_false hgood (a := '|') (by decide) (by decide)
  simp [adguardStep, h1]

theorem pySplitWS_single {l : List Char} (hne : l ≠ [])
    (h : ∀ c ∈ l, pyIsSpace c = false) : pySplitWS l = [l] := by
  rw [pySplitWS, splitOnPred_no h]
  simp [hne]

theorem hostsStep_fix {l : List Char} (hgood : ∀ c ∈ l, goodChar c = true) (hne : l ≠ []) :
    hostsStep l = if (startswith "0.0.0.0" l || startswith "127.0.0.1" l ||
      startswith "::1" l || startswith "localhost" l) then [] else l := by
  by_cases hcond : (startswith "0.0.0.0" l || startswith "127.0.0.1" l ||
      startswith "::1" l || startswith "localhost" l) = true
  · rw [hostsStep, if_pos hcond, if_pos hcond,
      pySplitWS_single hne (fun c hc => good_not_space (hgood c hc))]
  · rw [hostsStep, if_neg hcond, if_neg hcond]

theorem markersStep_fix {l : List Char} {c0 c1 : Char}
    (hh : l.head? = some c0) (hc0 : c0.isAlphanum = true)
    (hl : l.getLast? = some c1) (hc1 : c1.isAlphanum = true) : markersStep l = l := by
  have hp1 : decide (c0 = '|') = false := ne_char_of_alnum hc0 (by decide)
  have hp2 : decide (c1 = '^') = false := ne_char_of_alnum hc1 (by decide)
  have hp3 : (decide (c0 = '*') || decide (c0 = '.')) = false := by
    rw [ne_char_of_alnum hc0 (show ('*' : Char).isAlphanum = false by decide),
      ne_char_of_alnum hc0 (show ('.' : Char).isAlphanum = false by decide)]
    rfl
  have hp4 : decide (c0 = '.') = false := ne_char_of_alnum hc0 (by decide)
  rw [markersStep, dropWhile_head_no hh hp1, rstripWhile_last_no hl hp2,
    dropWhile_head_no hh hp3, dropWhile_head_no hh hp4]

theorem protocolStep_fix {l : List Char} (hgood : ∀ c ∈ l, goodChar c = true) :
    protocolStep l = l := by
  have h1 : startswith "http://" l = false :=
    good_startswith_eq_false hgood (a := ':') (by decide) (by decide)
  have h2 : startswith "https://" l = false :=
    good_startswith_eq_false hgood (a := ':') (by decide) (by decide)
  have h3 : startswith "ftp://" l = false :=
    good_startswith_eq_false hgood (a := ':') (by decide) (by decide)
  simp [protocolStep, h1, h2, h3]

theorem portStep_fix {l : List Char} (hgood : ∀ c ∈ l, goodChar c = true) :
    portStep l = l := by
  rw [portStep, good_contains_eq_false hgood (show goodChar ':' = false by decide)]
  rfl

theorem pathStep_fix {l : List Char} (hgood : ∀ c ∈ l, goodChar c = true) :
    pathStep l = l := by
  rw [pathStep, good_contains_eq_false hgood (show goodChar '/' = false by decide)]
  rfl

theorem queryStep_fix {l : List Char} (hgood : ∀ c ∈ l, goodChar c = true) :
    queryStep l = l := by
  rw [queryStep, good_contains_eq_false hgood (show goodChar '?' = false by decide)]
  rfl

theorem finalStep_fix {l : List Char} {c0 c1 : Char}
    (hh : l.head? = some c0) (hc0 : c0.isAlphanum = true)
    (hl : l.getLast? = some c1) (hc1 : c1.isAlphanum = true) : finalStep l = l := by
  have hset : ∀ c ∈ finalStripSet, c.isAlphanum = false := by decide
  rw [finalStep, pyStripChars, dropWhile_head_no hh (contains_eq_false_of_all_bad hset hc0),
    rstripWhile_last_no hl (contains_eq_false_of_all_bad hset hc1)]

theorem csvStep_fix {src : Option (List Char)} {l : List Char}
    (hcomma : l.contains ',' = false) : csvStep src l = some l := by
  rw [csvStep.eq_def]
  cases src with
  | none => rfl
  | some name => rw [hcomma]; simp

/-- On a string made only of regex characters (alphanumeric head, alphabetic
last character), the cleanup pipeline is the identity — unless the string
starts with one of the hosts-file address tokens, in which case the
hosts-file step empties it. -/
theorem cleanupPipeline_fix {l : List Char} {c0 c1 : Char}
    (hgood : ∀ c ∈ l, goodChar c = true)
    (hh : l.head? = some c0) (hc0 : c0.isAlphanum = true)
    (hl : l.getLast? = some c1) (hc1 : c1.isAlpha = true) :
    cleanupPipeline l = if (startswith "0.0.0.0" l || startswith "127.0.0.1" l ||
      startswith "::1" l || startswith "localhost" l) then [] else l := by
  have hne : l ≠ [] := by intro h; rw [h] at hh; cases hh
  have hc1n := alnum_of_alpha hc1
  rw [cleanupPipeline, adguardStep_fix hgood, hostsStep_fix hgood hne]
  by_cases hcond : (startswith "0.0.0.0" l || startswith "127.0.0.1" l ||
      startswith "::1" l || startswith "localhost" l) = true
  · rw [if_pos hcond]
    rfl
  · rw [if_neg hcond, markersStep_fix hh hc0 hl hc1n, protocolStep_fix hgood,
      portStep_fix hgood, pathStep_fix hgood, queryStep_fix hgood,
      finalStep_fix hh hc0 hl hc1n]

/-- Evaluation of `normalize_domain` on a lowercase `domain_regex` match:
the input passes through unchanged, except that a match starting with a
hosts-file address token (only possible for `localhost...` names) is
emptied by the hosts-file step. -/
theorem normalize_domain_canonical_eval (x : String) (source_name : Option String)
    (hm : matchesDomainRegex x.data = true) (hlow : pyLower x.data = x.data) :
    normalize_domain x source_name =
      if (startswith "0.0.0.0" x.data || startswith "127.0.0.1" x.data ||
          startswith "::1" x.data || startswith "localhost" x.data) then "" else x := by
  obtain ⟨c0, hh, hc0⟩ := matches_head hm
  obtain ⟨c1, hl, hc1⟩ := matches_last hm
  have hgood := matches_good hm
  have hdne : x.data ≠ [] := by intro h; rw [h] at hh; cases hh
  have hxne : x ≠ "" := by
    intro h
    apply hdne
    rw [h]
  have hg0 : goodChar c0 = true := hgood c0 (List.mem_of_mem_head? (Option.mem_def.2 hh))
  have hg1 : goodChar c1 = true := hgood c1 (List.mem_of_mem_getLast? (Option.mem_def.2 hl))
  have hstrip : pyStrip x.data = x.data :=
    pyStrip_fix hh (good_not_space hg0) hl (good_not_space hg1)
  have hfilter : (x.data.isEmpty || startswith "#" x.data || startswith "!" x.data ||
      startswith ";" x.data) = false := by
    rw [isEmpty_eq_false_of_ne hdne,
      good_startswith_eq_false hgood (a := '#') (by decide) (by decide),
      good_startswith_eq_false hgood (a := '!') (by decide) (by decide),
      good_startswith_eq_false hgood (a := ';') (by decide) (by decide)]
    rfl
  have hcsv : csvStep (Option.map String.data source_name) x.data = some x.data :=
    csvStep_fix (good_contains_eq_false hgood (show goodChar ',' = false by decide))
  rw [normalize_domain, if_neg hxne, hstrip, hlow, normalize_core_csv_ok hfilter hcsv,
    cleanupPipeline_fix hgood hh hc0 hl hc1]
  by_cases hcond : (startswith "0.0.0.0" x.data || startswith "127.0.0.1" x.data ||
      startswith "::1" x.data || startswith "localhost" x.data) = true
  · rw [if_pos hcond, if_pos hcond]
  · rw [if_neg hcond, if_neg hcond]

theorem normalize_domain_on_empty (source_name : Option String) :
    normalize_domain "" source_name = "" := by
  rw [normalize_domain, if_pos rfl]

/-- C7: normalization is idempotent on already-canonical domains
(a lowercase full match of `domain_regex`): `normalize(x) ==
normalize(normalize(x))`; concretely, `normalize("VALID-Domain.IO")` is
`"valid-domain.io"` and normalizing that output again leaves it unchanged. -/
theorem normalize_idempotent_on_canonical :
    (∀ (x : String) (source_name : Option String),
        matchesDomainRegex x.data = true → pyLower x.data = x.data →
        normalize_domain x source_name =
          normalize_domain (normalize_domain x source_name) source_name) ∧
    normalize_domain "VALID-Domain.IO" none = "valid-domain.io" ∧
    normalize_domain "valid-domain.io" none = "valid-domain.io" := by
  refine ⟨?_, by decide, by decide⟩
  intro x source_name hm hlow
  rw [normalize_domain_canonical_eval x source_name hm hlow]
  by_cases hcond : (startswith "0.0.0.0" x.data || startswith "127.0.0.1" x.data ||
      startswith "::1" x.data || startswith "localhost" x.data) = true
  · rw [if_pos hcond, normalize_domain_on_empty]
  · rw [if_neg hcond, normalize_domain_canonical_eval x source_name hm hlow, if_neg hcond]

theorem normalize_idempotent_witness :
    matchesDomainRegex "valid-domain.io".data = true ∧
    pyLower "valid-domain.io".data = "valid-domain.io".data ∧
    normalize_domain "valid-domain.io" none =
      normalize_domain (normalize_domain "valid-domain.io" none) none :=
  ⟨by decide, by decide,
    normalize_idempotent_on_canonical.1 "valid-domain.io" none (by decide) (by decide)⟩
